import Mathlib

/-!
# Verification of the econostream scraper core

Shallow embedding, in Lean 4, of the pure core of
`src/econostream_requests.py` (and the slicing logic its caller
`src/main.py` relies on), together with theorems settling the frozen
claims about the natural-language specification.

Conventions of the embedding:

* Python strings are Lean `String`s (= lists of unicode scalar values,
  matching Python's code-point view); byte-level URL work uses `List Nat`
  with each element a byte.
* External collaborators (the HTTP transport, BeautifulSoup node
  selection, `dateutil` parsing) are passed in as oracle parameters:
  the functions under verification are the repository's own pure logic
  applied to whatever those collaborators return, universally
  quantified.
* Fallible fetches return `Except FetchError`, mirroring the
  `raise_for_status` / retries-exhausted behaviour of the transport.
* Loops that follow server-provided "next" links are given explicit
  fuel; `none` means the fuel ran out before the loop finished, so a
  `some` result is a finished run of the source loop.
-/

/-- Python's unicode whitespace set, as used by `str.split()`, `str.strip()`
and by `\s` in `re` patterns over `str` (code points). -/
def pyIsSpace (c : Char) : Bool :=
  c.toNat ∈ [9, 10, 11, 12, 13, 28, 29, 30, 31, 32,
             0x85, 0xa0, 0x1680,
             0x2000, 0x2001, 0x2002, 0x2003, 0x2004, 0x2005, 0x2006,
             0x2007, 0x2008, 0x2009, 0x200a,
             0x2028, 0x2029, 0x202f, 0x205f, 0x3000]

/-- Space or horizontal tab, the class `[ \t]` of `_clean`. -/
def isSpaceTab (c : Char) : Bool := c = ' ' || c = '\t'

/-- One pass of `re.sub(r"[ \t]+", " ", s)`: every maximal run of
spaces/tabs is replaced by a single space.  The boolean flag records
whether the previous character was part of such a run. -/
def collapseST : Bool → List Char → List Char
  | _, [] => []
  | prev, c :: cs =>
    if isSpaceTab c then
      if prev then collapseST true cs else ' ' :: collapseST true cs
    else c :: collapseST false cs

/-- Index (0-based) of the last `'\n'` of a list, if any. -/
def lastNlPos (run : List Char) : Option Nat :=
  match run with
  | [] => none
  | c :: cs =>
    match lastNlPos cs with
    | some p => some (p + 1)
    | none => if c = '\n' then some 0 else none

/-- What `re.sub(r"\s+\n", "\n", ·)` leaves of one maximal whitespace
run: the regex match inside the run, if any, covers the run's prefix up
to its last `'\n'` (the greedy `\s+` backtracks to leave that `'\n'`
for the literal), and needs at least one whitespace character before
that `'\n'`; the match is replaced by a single `'\n'`. -/
def wsRunSub (run : List Char) : List Char :=
  match lastNlPos run with
  | some p => if 1 ≤ p then '\n' :: run.drop (p + 1) else run
  | none => run

/-- Apply `wsRunSub` to every maximal whitespace run of the string;
`curRun` accumulates the whitespace run currently being read. -/
def subWsNlAux (curRun : List Char) : List Char → List Char
  | [] => wsRunSub curRun
  | c :: cs =>
    if pyIsSpace c then subWsNlAux (curRun ++ [c]) cs
    else wsRunSub curRun ++ c :: subWsNlAux [] cs

/-- Model of `re.sub(r"\s+\n", "\n", s)`. -/
def subWsNl (s : List Char) : List Char := subWsNlAux [] s

/-- Python `str.strip()` on a character list. -/
def pyStripList (l : List Char) : List Char :=
  ((l.dropWhile pyIsSpace).reverse.dropWhile pyIsSpace).reverse

/-- Worker of `_clean` on a character list: NBSP to space, collapse space/tab
runs, drop whitespace before newlines, strip. -/
def pyCleanList (l : List Char) : List Char :=
  pyStripList (subWsNl (collapseST false (l.map fun c => if c = '\xa0' then ' ' else c)))

/-- Model of `_clean(s)`, src/econostream_requests.py lines 43-50 (the
`s is None` guard is dropped: every call site passes a string). -/
def pyClean (s : String) : String := String.mk (pyCleanList s.data)

/-- Accumulator-based worker for `pySplit`: `cur` is the reversed
current token, `none` when not inside a token. -/
def pySplitAux : Option (List Char) → List Char → List (List Char)
  | acc, [] =>
    (match acc with
     | some t => [t.reverse]
     | none => [])
  | acc, c :: cs =>
    if pyIsSpace c then
      match acc with
      | some t => t.reverse :: pySplitAux none cs
      | none => pySplitAux none cs
    else
      pySplitAux (some (c :: (acc.getD []))) cs

/-- Python `str.split()` with no argument: maximal runs of
non-whitespace characters, in order; no empty tokens. -/
def pySplit (s : String) : List String :=
  (pySplitAux none s.data).map String.mk

example : pySplit "  a bc\n\nd  " = ["a", "bc", "d"] := by decide
example : pyClean " a \t b\xa0c \n d " = "a b c\n d" := by decide
example : pyClean "This is a sufficiently long paragraph of prose." =
    "This is a sufficiently long paragraph of prose." := by decide

/-!
## URL normalizer (`_encode_url`, `_abs_and_encode`)

`urllib.parse.quote` percent-encodes the UTF-8 bytes of a string, so
this part of the embedding works on byte lists (`List Nat`, each
element < 256).  `urlsplit` / `urlunsplit` are modelled from CPython's
`urllib.parse` (≥ 3.10): unsafe bytes `\t\r\n` removed, leading and
trailing C0-control-or-space bytes stripped, scheme split at the first
`':'` when the prefix is a well-formed scheme, `//`-netloc delimited
by the first of `/?#`, fragment then query split at their first
occurrence.  The netloc bracket validation (which can only raise) is
elided.
-/

/-- Bytes of an ASCII Lean string (used for concrete URL inputs). -/
def asciiBytes (s : String) : List Nat := s.data.map Char.toNat

/-- Always-safe bytes of `quote`: ASCII letters, digits, `_.-~`. -/
def quoteAlwaysSafe (b : Nat) : Bool :=
  (65 ≤ b && b ≤ 90) || (97 ≤ b && b ≤ 122) || (48 ≤ b && b ≤ 57) ||
  b = 95 || b = 46 || b = 45 || b = 126

/-- Uppercase hexadecimal digit byte for a value < 16. -/
def hexUpper (n : Nat) : Nat := if n < 10 then 48 + n else 55 + n

/-- Encoding of one byte by `urllib.parse.quote`: kept verbatim when safe,
`%XX`-encoded (uppercase) otherwise. -/
def quoteByte (safe : List Nat) (b : Nat) : List Nat :=
  if quoteAlwaysSafe b || b ∈ safe then [b]
  else [37, hexUpper (b / 16), hexUpper (b % 16)]

/-- Model of `urllib.parse.quote(s, safe)` at byte level. -/
def pyQuote (safe : List Nat) (s : List Nat) : List Nat :=
  s.flatMap (quoteByte safe)

/-- The safe set `"/:@&=+$,;~*()-_."` used for the path in `_encode_url`. -/
def pathSafe : List Nat := asciiBytes "/:@&=+$,;~*()-_."

/-- The safe set `"=&%/:+~*()-_."` used for the query in `_encode_url`. -/
def querySafe : List Nat := asciiBytes "=&%/:+~*()-_."

/-- ASCII letter byte. -/
def isAlphaByte (b : Nat) : Bool := (65 ≤ b && b ≤ 90) || (97 ≤ b && b ≤ 122)

/-- Bytes allowed after the first character of a URL scheme. -/
def isSchemeByte (b : Nat) : Bool :=
  isAlphaByte b || (48 ≤ b && b ≤ 57) || b = 43 || b = 45 || b = 46

/-- Index of the first occurrence of byte `t`, if any. -/
def idxOfByte (t : Nat) : List Nat → Option Nat
  | [] => none
  | b :: bs => if b = t then some 0 else (idxOfByte t bs).map (· + 1)

/-- Index of the first byte satisfying `p`, if any. -/
def idxOfP (p : Nat → Bool) : List Nat → Option Nat
  | [] => none
  | b :: bs => if p b then some 0 else (idxOfP p bs).map (· + 1)

/-- ASCII lowercase of a byte (for the scheme). -/
def lowerByte (b : Nat) : Nat := if 65 ≤ b && b ≤ 90 then b + 32 else b

/-- Split result of `urlsplit`: scheme, netloc, path, query, fragment. -/
structure SplitUrl where
  scheme : List Nat
  netloc : List Nat
  path : List Nat
  query : List Nat
  fragment : List Nat
deriving DecidableEq

/-- Model of `urllib.parse.urlsplit` at byte level (see section comment). -/
def urlsplitB (url0 : List Nat) : SplitUrl :=
  let url1 := url0.filter fun b => b ≠ 9 && b ≠ 10 && b ≠ 13
  let url2 := ((url1.dropWhile (· ≤ 32)).reverse.dropWhile (· ≤ 32)).reverse
  let (scheme, url3) :=
    match idxOfByte 58 url2 with
    | some i =>
      if 0 < i && isAlphaByte (url2.headI) &&
          ((url2.take i).drop 1).all isSchemeByte then
        ((url2.take i).map lowerByte, url2.drop (i + 1))
      else ([], url2)
    | none => ([], url2)
  let (netloc, url4) :=
    if url3.take 2 = [47, 47] then
      let rest := url3.drop 2
      match idxOfP (fun b => b = 47 || b = 63 || b = 35) rest with
      | some d => (rest.take d, rest.drop d)
      | none => (rest, [])
    else ([], url3)
  let (url5, fragment) :=
    match idxOfByte 35 url4 with
    | some i => (url4.take i, url4.drop (i + 1))
    | none => (url4, [])
  let (path, query) :=
    match idxOfByte 63 url5 with
    | some i => (url5.take i, url5.drop (i + 1))
    | none => (url5, [])
  ⟨scheme, netloc, path, query, fragment⟩

/-- Model of `urllib.parse.urlunsplit` at byte level. -/
def urlunsplitB (u : SplitUrl) : List Nat :=
  let url :=
    if u.netloc ≠ [] || u.path.take 2 = [47, 47] then
      let url' := if u.path ≠ [] && u.path.take 1 ≠ [47] then 47 :: u.path else u.path
      47 :: 47 :: (u.netloc ++ url')
    else u.path
  let url := if u.scheme ≠ [] then u.scheme ++ 58 :: url else url
  let url := if u.query ≠ [] then url ++ 63 :: u.query else url
  if u.fragment ≠ [] then url ++ 35 :: u.fragment else url

/-- Model of `_encode_url` (src/econostream_requests.py lines 27-32): split the
URL, percent-encode path and query with their safe sets, reassemble. -/
def encode_url (url : List Nat) : List Nat :=
  let parts := urlsplitB url
  urlunsplitB ⟨parts.scheme, parts.netloc,
               pyQuote pathSafe parts.path, pyQuote querySafe parts.query,
               parts.fragment⟩

example :
    encode_url (asciiBytes "https://www.econostream-media.com/news/a b.html") =
      asciiBytes "https://www.econostream-media.com/news/a%20b.html" := by decide

/-!
## Article record and parser post-processing

`parse_article_html` mixes BeautifulSoup node selection (external)
with pure post-processing (the repository's own logic).  The embedding
takes the soup-derived raw values as parameters — `title` (result of
`_extract_title`), `published` (result of the whole
meta/visible-date/regex-fallback date pipeline, which also depends on
`dateutil`), `rawParagraphs` (the `get_text(separator=" ",
strip=True)` strings of the selected paragraph nodes), `image` and
`caption` — and performs the pure part verbatim: paragraph cleaning
and filtering, lede selection, body join, author/location extraction,
word count.
-/

/-- The parsed record returned by `parse_article_html`
(src/econostream_requests.py lines 295-306); `none` is Python `None`. -/
structure Article where
  url : String
  title : Option String
  published : Option String
  author : Option String
  location : Option String
  lede : Option String
  text : Option String
  word_count : Nat
  image : Option String
  caption : Option String
deriving DecidableEq

/-- Model of `_first_meaningful_paragraph` (lines 219-224): the cleaned text of
the first paragraph whose cleaned length is ≥ 20, else the first
paragraph verbatim, else `None`. -/
def first_meaningful_paragraph (paragraphs : List String) : Option String :=
  match paragraphs.find? (fun p => 20 ≤ (pyClean p).length) with
  | some p => some (pyClean p)
  | none => paragraphs.head?

/-- The dash alternatives `[–—\-]` of the byline patterns. -/
def isDashChar (c : Char) : Bool := c = '–' || c = '—' || c = '-'

/-- Index of the first character satisfying `p`, if any. -/
def idxOfCharP (p : Char → Bool) : List Char → Option Nat
  | [] => none
  | c :: cs => if p c then some 0 else (idxOfCharP p cs).map (· + 1)

/-- Whitespace-prefix length of a character list. -/
def wsPfxLen (l : List Char) : Nat := (l.takeWhile pyIsSpace).length

/-- Whether position `i` of `l` holds a whitespace character. -/
def wsAt (l : List Char) (i : Nat) : Bool :=
  match l.get? i with
  | some c => pyIsSpace c
  | none => false

/-- Model of `_AUTHOR_RE.search(head)` for
`_AUTHOR_RE = ^\s*By\s+([^–—\-]+)\s+[–—\-]\s*` (IGNORECASE).
Being anchored, the match must start at position 0: the leading `\s*`
ends exactly at the first non-whitespace character, which must start a
case-insensitive `By`; in the remainder `r` the matched dash is
necessarily the first dash (the group excludes dashes), the `\s+`
before the group forces `r` to start with whitespace, the `\s+` after
the group forces the character just before the dash to be whitespace,
and backtracking of the two greedy `\s+`/group makes the leading
whitespace run as long as possible (capped so the group stays
nonempty) and the group extend to just before the dash.  Returns the
captured group. -/
def author_re_search (s : List Char) : Option (List Char) :=
  match s.dropWhile pyIsSpace with
  | b :: y :: r =>
    if (b = 'B' || b = 'b') && (y = 'Y' || y = 'y') then
      match idxOfCharP isDashChar r with
      | some d =>
        if 3 ≤ d && wsAt r 0 && wsAt r (d - 1) then
          some ((r.take (d - 1)).drop (min (wsPfxLen r) (d - 2)))
        else none
      | none => none
    else none
  | _ => none

/-- The character class `[A-Za-zÀ-ÖØ-öø-ÿ\.\s]` of the location
pattern. -/
def isLocClassChar (c : Char) : Bool :=
  ('A' ≤ c && c ≤ 'Z') || ('a' ≤ c && c ≤ 'z') ||
  (0xC0 ≤ c.toNat && c.toNat ≤ 0xD6) || (0xD8 ≤ c.toNat && c.toNat ≤ 0xF6) ||
  (0xF8 ≤ c.toNat && c.toNat ≤ 0xFF) || c = '.' || pyIsSpace c

/-- The literal `(Econostream)` of the location pattern. -/
def econLit : List Char := "(Econostream)".data

/-- Whether `pre` is a prefix of `l` (Python `str.startswith`). -/
def listStartsWith : List Char → List Char → Bool
  | [], _ => true
  | _ :: _, [] => false
  | a :: as, b :: bs => a == b && listStartsWith as bs

/-- Tail of the location pattern after the capture group:
`\s*\(Econostream\)\s*[–—\-]` anchored at `t`.  Both `\s*` are
deterministic: each is followed by a non-whitespace requirement
(`'('`, resp. a dash), so the greedy run cannot usefully backtrack. -/
def locTailMatch (t : List Char) : Bool :=
  let t1 := t.dropWhile pyIsSpace
  listStartsWith econLit t1 &&
    (match (t1.drop econLit.length).dropWhile pyIsSpace with
     | c :: _ => isDashChar c
     | [] => false)

/-- Lazy capture group `([A-Za-zÀ-ÖØ-öø-ÿ\.\s]+?)`: starting at the
current position, take the shortest nonempty class-only prefix after
which `locTailMatch` succeeds.  `acc` is the group read so far. -/
def lazyLocGroup (acc : List Char) : List Char → Option (List Char)
  | [] => none
  | c :: cs =>
    if isLocClassChar c then
      if locTailMatch cs then some (acc ++ [c])
      else lazyLocGroup (acc ++ [c]) cs
    else none

/-- Leading `\s*` of the location pattern (between the dash and the
group): greedy, so the longest whitespace skip that lets the rest
match wins; `k` counts down from the whitespace-run length. -/
def locDescend (r : List Char) : Nat → Option (List Char)
  | 0 => lazyLocGroup [] r
  | k + 1 =>
    match lazyLocGroup [] (r.drop (k + 1)) with
    | some g => some g
    | none => locDescend r k

/-- Match of the location pattern immediately after a dash occurrence:
`\s*` (greedy, longest first) then the lazy group then the tail. -/
def locAfterDash (r : List Char) : Option (List Char) :=
  locDescend r (wsPfxLen r)

/-- Model of
`re.search(r"[–—\-]\s*([A-Za-zÀ-ÖØ-öø-ÿ\.\s]+?)\s*\(Econostream\)\s*[–—\-]", head)`:
the pattern starts with a dash, so the leftmost match starts at the
first dash from which the remainder matches. -/
def loc_re_search : List Char → Option (List Char)
  | [] => none
  | c :: cs =>
    if isDashChar c then
      match locAfterDash cs with
      | some g => some g
      | none => loc_re_search cs
    else loc_re_search cs

/-- Model of `_extract_author_and_location(text)`
(src/econostream_requests.py lines 227-243): search the first 300
characters for the byline pattern; on a hit, the cleaned group is the
author and a location pattern hit in the same head gives the cleaned
location. -/
def extract_author_and_location (text : String) : Option String × Option String :=
  let head := text.data.take 300
  match author_re_search head with
  | none => (none, none)
  | some g =>
    (some (pyClean (String.mk g)),
     (loc_re_search head).map fun l => pyClean (String.mk l))

example :
    extract_author_and_location
      "By Jane Doe – Paris (Econostream) – The rest of the story..." =
    (some "Jane Doe", some "Paris") := by decide
example : extract_author_and_location "No byline here at all." = (none, none) := by
  decide

/-- Blank-line join at list-of-strings level (`"\n\n".join(paragraphs)`). -/
def joinParas : List String → String
  | [] => ""
  | [p] => p
  | p :: ps => p ++ "\n\n" ++ joinParas ps

/-- Model of `parse_article_html` (src/econostream_requests.py lines 246-306),
pure tail.  Soup-derived inputs (see section comment): `title`,
`published`, `rawParagraphs`, `image`, `caption`.  The embedded logic:
keep the cleaned, nonempty paragraphs; lede via
`_first_meaningful_paragraph`; body text joins paragraphs with blank
lines (`None` when there are none); author/location from the lede and
second paragraph; word count is the whitespace-token count of the body
text, `0` when it is `None` (or empty, which cannot occur).
`cleanedParas` is the `paragraphs = [_clean(p) for p in paragraphs if
_clean(p)]` comprehension of line 267. -/
def cleanedParas (rawParagraphs : List String) : List String :=
  rawParagraphs.filterMap fun p =>
    let c := pyClean p
    if c = "" then none else some c

/-- Continuation of `parse_article_html`: see the section comment. -/
def parse_article_html (url : String) (title published : Option String)
    (rawParagraphs : List String) (image caption : Option String) : Article :=
  let paragraphs := cleanedParas rawParagraphs
  let lede := first_meaningful_paragraph paragraphs
  let body_text := if paragraphs.isEmpty then none else some (joinParas paragraphs)
  let al := extract_author_and_location
    ((lede.getD "") ++ " " ++ ((paragraphs.get? 1).getD ""))
  let word_count :=
    match body_text with
    | some t => if t = "" then 0 else (pySplit t).length
    | none => 0
  { url := url, title := title, published := published,
    author := al.1, location := al.2, lede := lede, text := body_text,
    word_count := word_count, image := image, caption := caption }

/-!
## Transport, pagination crawler and orchestrator

The transport is an oracle `Http : String → Except Nat String`: the
body text on success, the final HTTP status on failure (non-retryable
status or retries exhausted).  `_fetch_html` turns a failure into a
`FetchError` carrying the offending URL, modelling
`Response.raise_for_status()`.  `_parse_article_links_from_html`
(BeautifulSoup anchor selection, lines 88-109) is abstracted as an
oracle `String → Page` giving the article links and the optional next
link of a fetched page.
-/

deriving instance DecidableEq for Except

/-- The transport oracle: html body, or failing HTTP status. -/
abbrev Http := String → Except Nat String

/-- A failed fetch: the offending URL and the HTTP status
(`requests.HTTPError` raised by `raise_for_status`). -/
structure FetchError where
  url : String
  status : Nat
deriving DecidableEq

/-- Result of `_parse_article_links_from_html`: the article links of
one list page (in page order) and the next-page link, if any. -/
structure Page where
  links : List String
  next : Option String

/-- Model of `_fetch_html` (lines 81-84): GET, raising on a bad status. -/
def fetch_html (http : Http) (url : String) : Except FetchError String :=
  match http url with
  | .ok body => .ok body
  | .error status => .error ⟨url, status⟩

/-- The constant `BASE_URL` (line 23). -/
def BASE_URL : String := "https://www.econostream-media.com"

/-- The constant `START_URL` (line 24). -/
def START_URL : String := BASE_URL ++ "/news"

/-- Python `str.startswith` / `str.endswith` for Lean strings. -/
def pyStartsWith (s pre : String) : Bool := listStartsWith pre.data s.data

/-- Python `str.endswith`. -/
def pyEndsWith (s suf : String) : Bool := listStartsWith suf.data.reverse s.data.reverse

/-- The canonical article-URL filter of `extract_all_news_links`
(line 133): prefix `BASE_URL + "/news/"` and suffix `".html"`. -/
def keepLink (url : String) : Bool :=
  pyStartsWith url (BASE_URL ++ "/news/") && pyEndsWith url ".html"

/-- The inner `for url in links` loop of `extract_all_news_links`
(lines 132-135): state is `(seen, collected)`; a canonical, unseen
link is added to both. -/
def collectPage : List String → List String × List String → List String × List String
  | [], st => st
  | url :: rest, (seen, collected) =>
    if keepLink url ∧ url ∉ seen then
      collectPage rest (url :: seen, collected ++ [url])
    else
      collectPage rest (seen, collected)

/-- The `max_pages is not None and page_count >= max_pages` test
(line 137). -/
def capReached (maxPages : Option Int) (pageCount : Int) : Bool :=
  match maxPages with
  | some m => m ≤ pageCount
  | none => false

/-- The `while True` loop of `extract_all_news_links` (lines 127-144),
with explicit fuel (`none` = fuel ran out mid-loop).  Each iteration:
bump the page counter, fetch the current page (a fetch error aborts
the whole call), collect its canonical unseen links, stop on the page
cap or on a missing next link, else continue at the next link. -/
def extract_loop (http : Http) (parseList : String → Page) (maxPages : Option Int) :
    Nat → String → Int → List String × List String →
    Option (Except FetchError (List String))
  | 0, _, _, _ => none
  | fuel + 1, current, pageCount, (seen, collected) =>
    let pc := pageCount + 1
    match fetch_html http current with
    | .error e => some (.error e)
    | .ok html =>
      let page := parseList html
      let st := collectPage page.links (seen, collected)
      if capReached maxPages pc then some (.ok st.2)
      else
        match page.next with
        | some nxt => extract_loop http parseList maxPages fuel nxt pc st
        | none => some (.ok st.2)

/-- Model of `extract_all_news_links(start_url, max_pages, delay_sec)`
(lines 112-147): run the loop from the start URL with empty state. -/
def extract_all_news_links (http : Http) (parseList : String → Page)
    (maxPages : Option Int) (fuel : Nat) (startUrl : String) :
    Option (Except FetchError (List String)) :=
  extract_loop http parseList maxPages fuel startUrl 0 ([], [])

/-- The `urls = urls[:max(0, int(limit))] if limit is not None` slice
of `scrape_full` (lines 338-339). -/
def sliceLimit (limit : Option Int) (urls : List String) : List String :=
  match limit with
  | some l => urls.take (max 0 l).toNat
  | none => urls

/-- The `for u in urls` loop of `scrape_full` (lines 341-344): fetch
and parse each article in order, a fetch error aborting the whole
call.  `parseArticle html url` stands for `parse_article_html(html, u)`
(html parsing being soup-driven, the parser is passed as an oracle). -/
def articles_loop (http : Http) (parseArticle : String → String → Article) :
    List String → List Article → Except FetchError (List Article)
  | [], results => .ok results
  | u :: rest, results =>
    match fetch_html http u with
    | .error e => .error e
    | .ok html => articles_loop http parseArticle rest (results ++ [parseArticle html u])

/-- Model of `scrape_full(start_url, max_pages, limit, delay_sec)`
(lines 321-347): collect the candidate links, truncate them to the
first `max(0, limit)` when a limit is given (there is no offset
parameter), then fetch and parse each remaining URL in order.  The
return value is the bare article list — no candidate-count component. -/
def scrape_full (http : Http) (parseList : String → Page)
    (parseArticle : String → String → Article) (maxPages : Option Int)
    (limit : Option Int) (fuel : Nat) (startUrl : String) :
    Option (Except FetchError (List Article)) :=
  match extract_all_news_links http parseList maxPages fuel startUrl with
  | none => none
  | some (.error e) => some (.error e)
  | some (.ok urls) => some (articles_loop http parseArticle (sliceLimit limit urls) [])

/-!
## Reference characterization of the pagination crawler

`chain_links` replays exactly the traversal of `extract_loop`
(same fetches, same stopping rules) but returns the raw concatenation
of each visited page's links, in site-traversal order, without
filtering or deduplication; `dedupFirst` keeps the first occurrence of
every element.  Claim C4 states that the crawler's output is the
canonical-shape filter of that concatenation, deduplicated at first
occurrence.
-/

/-- Append an element unless already present (first occurrence wins). -/
def addUnique (acc : List String) (u : String) : List String :=
  if u ∈ acc then acc else acc ++ [u]

/-- Keep the first occurrence of every element, preserving order. -/
def dedupFirst (l : List String) : List String := l.foldl addUnique []

/-- The raw site-traversal link sequence: same control flow as
`extract_loop`, collecting each visited page's links verbatim. -/
def chain_links (http : Http) (parseList : String → Page) (maxPages : Option Int) :
    Nat → String → Int → Option (Except FetchError (List String))
  | 0, _, _ => none
  | fuel + 1, current, pageCount =>
    let pc := pageCount + 1
    match fetch_html http current with
    | .error e => some (.error e)
    | .ok html =>
      let page := parseList html
      if capReached maxPages pc then some (.ok page.links)
      else
        match page.next with
        | some nxt =>
          match chain_links http parseList maxPages fuel nxt pc with
          | none => none
          | some (.error e) => some (.error e)
          | some (.ok rest) => some (.ok (page.links ++ rest))
        | none => some (.ok page.links)

theorem mem_addUnique (acc : List String) (x u : String) :
    u ∈ addUnique acc x ↔ u ∈ acc ∨ u = x := by
  unfold addUnique
  split
  · rename_i hx
    constructor
    · exact Or.inl
    · rintro (h | rfl)
      · exact h
      · exact hx
  · simp [List.mem_append]

theorem collectPage_spec (links : List String) :
    ∀ seen collected, (∀ u, u ∈ seen ↔ u ∈ collected) →
    (collectPage links (seen, collected)).2
        = (links.filter keepLink).foldl addUnique collected
    ∧ (∀ u, u ∈ (collectPage links (seen, collected)).1
        ↔ u ∈ (collectPage links (seen, collected)).2) := by
  induction links with
  | nil => exact fun seen collected hinv => ⟨rfl, hinv⟩
  | cons url rest ih =>
    intro seen collected hinv
    by_cases hk : keepLink url
    · by_cases hs : url ∈ seen
      · have hstep : collectPage (url :: rest) (seen, collected)
            = collectPage rest (seen, collected) := by
          simp [collectPage, hs]
        have hcol : url ∈ collected := (hinv url).1 hs
        have h2 := ih seen collected hinv
        refine ⟨?_, hstep ▸ h2.2⟩
        rw [hstep, h2.1, List.filter_cons_of_pos hk, List.foldl_cons]
        simp [addUnique, hcol]
      · have hstep : collectPage (url :: rest) (seen, collected)
            = collectPage rest (url :: seen, collected ++ [url]) := by
          simp [collectPage, hk, hs]
        have hcol : url ∉ collected := fun h => hs ((hinv url).2 h)
        have hinv' : ∀ u, u ∈ url :: seen ↔ u ∈ collected ++ [url] := by
          intro u
          simp only [List.mem_cons, List.mem_append, List.mem_singleton]
          rw [hinv u]
          tauto
        have h2 := ih (url :: seen) (collected ++ [url]) hinv'
        refine ⟨?_, hstep ▸ h2.2⟩
        rw [hstep, h2.1, List.filter_cons_of_pos hk, List.foldl_cons]
        simp [addUnique, hcol]
    · have hstep : collectPage (url :: rest) (seen, collected)
          = collectPage rest (seen, collected) := by
        simp [collectPage, hk]
      have h2 := ih seen collected hinv
      refine ⟨?_, hstep ▸ h2.2⟩
      rw [hstep, h2.1, List.filter_cons_of_neg (by simpa using hk)]

theorem extract_loop_spec (http : Http) (parseList : String → Page)
    (maxPages : Option Int) :
    ∀ fuel cur pc seen collected, (∀ u, u ∈ seen ↔ u ∈ collected) →
    extract_loop http parseList maxPages fuel cur pc (seen, collected)
      = match chain_links http parseList maxPages fuel cur pc with
        | none => none
        | some (.error e) => some (.error e)
        | some (.ok L) =>
            some (.ok ((L.filter keepLink).foldl addUnique collected)) := by
  intro fuel
  induction fuel with
  | zero => intro cur pc seen collected _; rfl
  | succ fuel ih =>
    intro cur pc seen collected hinv
    cases hf : fetch_html http cur with
    | error e => simp only [extract_loop, chain_links, hf]
    | ok html =>
      have hcp := collectPage_spec (parseList html).links seen collected hinv
      cases hcap : capReached maxPages (pc + 1) with
      | true =>
        simp only [extract_loop, chain_links, hf, hcap, if_true, hcp.1]
      | false =>
        cases hn : (parseList html).next with
        | none =>
          simp only [extract_loop, chain_links, hf, hcap, Bool.false_eq_true,
            if_false, hn, hcp.1]
        | some nxt =>
          simp only [extract_loop, chain_links, hf, hcap, Bool.false_eq_true,
            if_false, hn]
          rw [show collectPage (parseList html).links (seen, collected)
              = ((collectPage (parseList html).links (seen, collected)).1,
                 (collectPage (parseList html).links (seen, collected)).2) from rfl,
             ih nxt (pc + 1) _ _ hcp.2]
          cases hc : chain_links http parseList maxPages fuel nxt (pc + 1) with
          | none => rfl
          | some r =>
            cases r with
            | error e => rfl
            | ok rest =>
              simp only [List.filter_append, List.foldl_append, hcp.1]

/-- C4: the link-listing operation returns links in strict
site-traversal order — every link of page 1 before every link of
page 2, intra-page order preserved — deduplicated at first occurrence,
and keeps exactly the links of the canonical article-URL shape
(`BASE_URL + "/news/"` prefix, `".html"` suffix): any finished run of
`extract_all_news_links` equals the first-occurrence deduplication of
the shape-filtered concatenation of the visited pages' link lists in
traversal order (`chain_links`). -/
theorem c4_link_listing_order_dedup_shape (http : Http) (parseList : String → Page)
    (maxPages : Option Int) (fuel : Nat) (startUrl : String) (res : List String)
    (h : extract_all_news_links http parseList maxPages fuel startUrl
        = some (.ok res)) :
    ∃ L, chain_links http parseList maxPages fuel startUrl 0 = some (.ok L)
      ∧ res = dedupFirst (L.filter keepLink) := by
  have hspec := extract_loop_spec http parseList maxPages fuel startUrl 0 [] []
    (by simp)
  rw [extract_all_news_links] at h
  rw [hspec] at h
  cases hc : chain_links http parseList maxPages fuel startUrl 0 with
  | none => rw [hc] at h; cases h
  | some r =>
    cases r with
    | error e => rw [hc] at h; cases h
    | ok L =>
      rw [hc] at h
      refine ⟨L, rfl, ?_⟩
      have := Option.some.inj h
      have := Except.ok.inj this
      exact this.symm

/-!
## Concrete test site (used by the witnesses)

Two list pages: page 1 holds three canonical article links and one
off-shape link and points to page 2; page 2 repeats one of page 1's
links, adds a fresh one and has no next link.  `testHttp` serves the
two pages and fails with a 404 on anything else; `testHttpDown` fails
with a 500 on one specific article URL.
-/

/-- Canonical article URL for the tests. -/
def newsUrl (s : String) : String := BASE_URL ++ "/news/" ++ s ++ ".html"

/-- The next-page link of the test site's first page. -/
def page2Url : String := BASE_URL ++ "/news?offset=20"

/-- List-page parsing oracle of the test site. -/
def testSite : String → Page := fun html =>
  if html = "html1" then
    ⟨[newsUrl "a1", newsUrl "a2", BASE_URL ++ "/about.html", newsUrl "a3"],
     some page2Url⟩
  else if html = "html2" then ⟨[newsUrl "a2", newsUrl "a4"], none⟩
  else ⟨[], none⟩

/-- Transport oracle of the test site: both list pages resolve, any
other URL yields a 404. -/
def testHttp : Http := fun url =>
  if url = START_URL then .ok "html1"
  else if url = page2Url then .ok "html2"
  else .error 404

theorem c4_link_listing_order_dedup_shape_witness :
    extract_all_news_links testHttp testSite none 2 START_URL
      = some (.ok [newsUrl "a1", newsUrl "a2", newsUrl "a3", newsUrl "a4"])
    ∧ ∃ L, chain_links testHttp testSite none 2 START_URL 0 = some (.ok L)
      ∧ [newsUrl "a1", newsUrl "a2", newsUrl "a3", newsUrl "a4"]
          = dedupFirst (L.filter keepLink) :=
  ⟨by decide,
   c4_link_listing_order_dedup_shape testHttp testSite none 2 START_URL _ (by decide)⟩

theorem articles_loop_error (http : Http) (parseArticle : String → String → Article)
    (u : String) (post : List String) (s : Nat) (hu : http u = .error s) :
    ∀ pre acc, (∀ v ∈ pre, ∃ b, http v = .ok b) →
    articles_loop http parseArticle (pre ++ u :: post) acc = .error ⟨u, s⟩ := by
  intro pre
  induction pre with
  | nil => intro acc _; simp [articles_loop, fetch_html, hu]
  | cons v rest ih =>
    intro acc hok
    obtain ⟨b, hb⟩ := hok v (by simp)
    simp only [List.cons_append, articles_loop, fetch_html, hb]
    exact ih _ fun w hw => hok w (by simp [hw])

/-- C7: a transport failure (non-retryable status or retries
exhausted) aborts the whole crawl call with an error carrying the
failing URL, and no partial result is emitted.  First conjunct: a
failing fetch of the current list page makes the pagination loop
return that error (not a partial link list), from any loop state.
Second: a link-phase error is returned verbatim by `scrape_full`.
Third: if the article at some position of the sliced URL list fails
while all earlier ones fetched fine, `scrape_full` returns the error
with that article's URL (not a partial article list). -/
theorem c7_transport_failure_aborts (http : Http) (parseList : String → Page)
    (parseArticle : String → String → Article) (maxPages limit : Option Int) :
    (∀ fuel cur pc st s, http cur = .error s →
      extract_loop http parseList maxPages (fuel + 1) cur pc st
        = some (.error ⟨cur, s⟩))
    ∧ (∀ fuel startUrl e,
        extract_all_news_links http parseList maxPages fuel startUrl
          = some (.error e) →
        scrape_full http parseList parseArticle maxPages limit fuel startUrl
          = some (.error e))
    ∧ (∀ fuel startUrl urls pre u post s,
        extract_all_news_links http parseList maxPages fuel startUrl
          = some (.ok urls) →
        sliceLimit limit urls = pre ++ u :: post →
        (∀ v ∈ pre, ∃ b, http v = .ok b) →
        http u = .error s →
        scrape_full http parseList parseArticle maxPages limit fuel startUrl
          = some (.error ⟨u, s⟩)) := by
  refine ⟨?_, ?_, ?_⟩
  · intro fuel cur pc st s h
    cases st with
    | mk seen collected => simp [extract_loop, fetch_html, h]
  · intro fuel startUrl e h
    simp [scrape_full, h]
  · intro fuel startUrl urls pre u post s hurls hslice hok hu
    simp only [scrape_full, hurls, hslice]
    rw [articles_loop_error http parseArticle u post s hu pre [] hok]

/-- Transport oracle where the article `a2` is permanently down
(500 on every retry), while the list pages and article `a1` resolve. -/
def testHttpDown : Http := fun url =>
  if url = START_URL then .ok "html1"
  else if url = page2Url then .ok "html2"
  else if url = newsUrl "a1" then .ok "arthtml"
  else if url = newsUrl "a2" then .error 500
  else .error 404

/-- Article-parsing oracle for the crawl tests. -/
def testParseArticle : String → String → Article := fun _ u =>
  parse_article_html u none none [] none none

theorem c7_transport_failure_aborts_witness :
    testHttpDown (newsUrl "a2") = .error 500
    ∧ scrape_full testHttpDown testSite testParseArticle none none 2 START_URL
        = some (.error ⟨newsUrl "a2", 500⟩) :=
  ⟨by decide,
   (c7_transport_failure_aborts testHttpDown testSite testParseArticle none none).2.2
     2 START_URL [newsUrl "a1", newsUrl "a2", newsUrl "a3", newsUrl "a4"]
     [newsUrl "a1"] (newsUrl "a2") [newsUrl "a3", newsUrl "a4"] 500
     (by decide) (by decide)
     (by
       intro v hv
       simp only [List.mem_singleton] at hv
       subst hv
       exact ⟨"arthtml", by decide⟩)
     (by decide)⟩

/-- The page the crawl moves to after fetching `p`: the parsed
next-link on success, nothing on a fetch error (which ends the loop by
raising). -/
def nextPageOf (http : Http) (parseList : String → Page) (p : String) : Option String :=
  match http p with
  | .ok html => (parseList html).next
  | .error _ => none

/-- The page visited at step `k` of the deterministic next-page chain
starting at `cur` (`some cur` at step 0). -/
def chainAt (http : Http) (parseList : String → Page) : Nat → String → Option String
  | 0, cur => some cur
  | k + 1, cur =>
    match nextPageOf http parseList cur with
    | some nxt => chainAt http parseList k nxt
    | none => none

theorem extract_loop_total (http : Http) (parseList : String → Page) :
    ∀ k cur p h, chainAt http parseList k cur = some p →
      http p = .ok h → (parseList h).next = none →
    ∀ pc st fuel, k + 1 ≤ fuel →
      extract_loop http parseList none fuel cur pc st
        = extract_loop http parseList none (k + 1) cur pc st
      ∧ (extract_loop http parseList none (k + 1) cur pc st).isSome := by
  intro k
  induction k with
  | zero =>
    intro cur p h hchain hp hnext pc st fuel hfuel
    have hcur : cur = p := by simpa [chainAt] using hchain
    subst hcur
    obtain ⟨fuel', rfl⟩ : ∃ f, fuel = f + 1 := ⟨fuel - 1, by omega⟩
    cases st with
    | mk seen collected =>
      constructor
      · simp [extract_loop, fetch_html, hp, hnext, capReached]
      · simp [extract_loop, fetch_html, hp, hnext, capReached]
  | succ k ih =>
    intro cur p h hchain hp hnext pc st fuel hfuel
    rw [chainAt] at hchain
    cases hn : nextPageOf http parseList cur with
    | none => rw [hn] at hchain; cases hchain
    | some nxt =>
      rw [hn] at hchain
      have hex : ∃ html, http cur = .ok html ∧ (parseList html).next = some nxt := by
        unfold nextPageOf at hn
        cases hcur : http cur with
        | ok b => rw [hcur] at hn; exact ⟨b, rfl, hn⟩
        | error s => rw [hcur] at hn; cases hn
      obtain ⟨html, hcur, hnx⟩ := hex
      obtain ⟨fuel', rfl⟩ : ∃ f, fuel = f + 1 := ⟨fuel - 1, by omega⟩
      cases st with
      | mk seen collected =>
        have h1 : extract_loop http parseList none (fuel' + 1) cur pc (seen, collected)
            = extract_loop http parseList none fuel' nxt (pc + 1)
                (collectPage (parseList html).links (seen, collected)) := by
          simp [extract_loop, fetch_html, hcur, hnx, capReached]
        have h2 : extract_loop http parseList none (k + 1 + 1) cur pc (seen, collected)
            = extract_loop http parseList none (k + 1) nxt (pc + 1)
                (collectPage (parseList html).links (seen, collected)) := by
          simp [extract_loop, fetch_html, hcur, hnx, capReached]
        have hrec := ih nxt p h hchain hp hnext (pc + 1)
          (collectPage (parseList html).links (seen, collected)) fuel' (by omega)
        exact ⟨by rw [h1, h2]; exact hrec.1, by rw [h2]; exact hrec.2⟩

/-- C8: with an unbounded page cap (`max_pages = None`), the
link-listing operation terminates whenever the next-page chain from
the start URL reaches, at some step `k`, a page that fetches fine and
has no next-page link: the loop finishes within `k + 1` iterations
(one fetch per iteration), and giving it any larger fuel does not
change the outcome.  In particular (witness) a single page with no
next link terminates the crawl after fetching exactly one page. -/
theorem c8_unbounded_cap_terminates (http : Http) (parseList : String → Page)
    (k : Nat) (startUrl p h : String)
    (hchain : chainAt http parseList k startUrl = some p)
    (hp : http p = .ok h) (hnext : (parseList h).next = none)
    (fuel : Nat) (hfuel : k + 1 ≤ fuel) :
    extract_all_news_links http parseList none fuel startUrl
      = extract_all_news_links http parseList none (k + 1) startUrl
    ∧ (extract_all_news_links http parseList none (k + 1) startUrl).isSome :=
  extract_loop_total http parseList k startUrl p h hchain hp hnext 0 ([], []) fuel hfuel

/-- One-page test site: the single list page has no next link. -/
def testSiteOne : String → Page := fun html =>
  if html = "html1" then ⟨[newsUrl "a1"], none⟩ else ⟨[], none⟩

theorem c8_unbounded_cap_terminates_witness :
    chainAt testHttp testSiteOne 0 START_URL = some START_URL
    ∧ (testSiteOne "html1").next = none
    ∧ (extract_all_news_links testHttp testSiteOne none 100 START_URL
        = extract_all_news_links testHttp testSiteOne none 1 START_URL
      ∧ (extract_all_news_links testHttp testSiteOne none 1 START_URL).isSome)
    ∧ extract_all_news_links testHttp testSiteOne none 1 START_URL
        = some (.ok [newsUrl "a1"]) :=
  ⟨by decide, by decide,
   c8_unbounded_cap_terminates testHttp testSiteOne 0 START_URL START_URL "html1"
     (by decide) (by decide) (by decide) 100 (by omega),
   by decide⟩

/-- C10: any `limit ≤ 0` handed to `scrape_full` is clamped by
`urls[:max(0, int(limit))]` to an empty slice: once the link-listing
phase (which still runs first) finishes, the call returns an empty
article list instead of raising. -/
theorem c10_nonpositive_limit_clamped (http : Http) (parseList : String → Page)
    (parseArticle : String → String → Article) (maxPages : Option Int)
    (l : Int) (hl : l ≤ 0) (fuel : Nat) (startUrl : String) (urls : List String)
    (hurls : extract_all_news_links http parseList maxPages fuel startUrl
        = some (.ok urls)) :
    scrape_full http parseList parseArticle maxPages (some l) fuel startUrl
      = some (.ok []) := by
  have hmax : max (0 : Int) l = 0 := max_eq_left hl
  simp [scrape_full, hurls, sliceLimit, hmax, articles_loop]

theorem c10_nonpositive_limit_clamped_witness :
    (-5 : Int) ≤ 0
    ∧ scrape_full testHttp testSite testParseArticle none (some (-5)) 2 START_URL
        = some (.ok []) :=
  ⟨by omega,
   c10_nonpositive_limit_clamped testHttp testSite testParseArticle none (-5)
     (by omega) 2 START_URL
     [newsUrl "a1", newsUrl "a2", newsUrl "a3", newsUrl "a4"] (by decide)⟩

/-!
## Claim C1: the orchestrator's slicing interface

`scrape_full` (src/econostream_requests.py lines 321-347) takes
`(start_url, max_pages, limit, delay_sec)`: it has **no** offset
parameter, slices the candidate list as `urls[:max(0, limit)]`
(i.e. positions `0 .. limit-1`), and returns the bare article list —
no total-candidate count.  Its in-repo caller
`main.py:scrape_full_endpoint` (lines 93-99) nevertheless invokes it
as `scrape_full_impl(..., offset=offset, limit=limit, ...)` and
unpacks `items, total = ...`, the interface the spec describes; that
call raises `TypeError` on every request.  The theorem below pins the
actual slicing: over 10 discovered candidates with `limit=3`, the
positions fetched are 0, 1, 2 — not 2, 3, 4 — and the value carries no
candidate count.
-/

/-- Ten canonical candidate URLs. -/
def tenUrls : List String :=
  [newsUrl "b0", newsUrl "b1", newsUrl "b2", newsUrl "b3", newsUrl "b4",
   newsUrl "b5", newsUrl "b6", newsUrl "b7", newsUrl "b8", newsUrl "b9"]

/-- One list page carrying the ten candidates, no next link. -/
def testSiteTen : String → Page := fun html =>
  if html = "html1" then ⟨tenUrls, none⟩ else ⟨[], none⟩

/-- Transport where the list page and every article resolve. -/
def testHttpTen : Http := fun url =>
  if url = START_URL then .ok "html1" else .ok ("body of " ++ url)

/-- The article `testParseArticle` produces for a URL. -/
def testArticleFor (u : String) : Article :=
  parse_article_html u none none [] none none

/-- C1 (refuting evidence): with 10 discovered candidates and
`limit = 3`, `scrape_full` fetches and parses exactly the candidates
at positions 0, 1, 2 — not the offset window 2, 3, 4 the claim
describes — and returns only the article list (the type
`Except FetchError (List Article)` has no total-candidate-count
component). -/
theorem c1_scrape_full_slices_from_front :
    scrape_full testHttpTen testSiteTen testParseArticle (some 1) (some 3) 1 START_URL
      = some (.ok [testArticleFor (newsUrl "b0"), testArticleFor (newsUrl "b1"),
                   testArticleFor (newsUrl "b2")])
    ∧ scrape_full testHttpTen testSiteTen testParseArticle (some 1) (some 3) 1 START_URL
      ≠ some (.ok [testArticleFor (newsUrl "b2"), testArticleFor (newsUrl "b3"),
                   testArticleFor (newsUrl "b4")]) := by
  constructor
  · decide
  · decide

/-- C2 (refuting evidence): the normalizer is not idempotent.  The
path safe-set of `_encode_url` omits `%` (unlike the query safe-set),
so re-normalizing an already-normalized URL whose path needed any
encoding re-encodes the `%` of its escapes: normalizing
`https://www.econostream-media.com/news/a b.html` yields
`.../news/a%20b.html`, and normalizing that output again yields
`.../news/a%2520b.html` — a double-encoded percent-escape in the
path, different from its input. -/
theorem c2_normalizer_not_idempotent :
    encode_url (encode_url
        (asciiBytes "https://www.econostream-media.com/news/a b.html"))
      ≠ encode_url (asciiBytes "https://www.econostream-media.com/news/a b.html")
    ∧ encode_url (asciiBytes "https://www.econostream-media.com/news/a b.html")
      = asciiBytes "https://www.econostream-media.com/news/a%20b.html"
    ∧ encode_url (asciiBytes "https://www.econostream-media.com/news/a%20b.html")
      = asciiBytes "https://www.econostream-media.com/news/a%2520b.html" :=
  ⟨by decide, by decide, by decide⟩

/-- C3: in every record the article parser produces, `word_count` is
the number of whitespace-separated tokens of `text` when `text` is
present, and `0` when `text` is absent.  (Universally quantified over
the soup-derived inputs, hence over every producible Article.) -/
theorem c3_word_count_invariant (url : String) (title published : Option String)
    (rawParagraphs : List String) (image caption : Option String) :
    (∀ t, (parse_article_html url title published rawParagraphs image caption).text
        = some t →
      (parse_article_html url title published rawParagraphs image caption).word_count
        = (pySplit t).length)
    ∧ ((parse_article_html url title published rawParagraphs image caption).text
        = none →
      (parse_article_html url title published rawParagraphs image caption).word_count
        = 0) := by
  constructor
  · intro t ht
    cases hemp : (cleanedParas rawParagraphs).isEmpty with
    | true => simp [parse_article_html, hemp] at ht
    | false =>
      simp only [parse_article_html, hemp, Bool.false_eq_true, if_false,
        Option.some.injEq] at ht ⊢
      subst ht
      by_cases hj : joinParas (cleanedParas rawParagraphs) = ""
      · rw [if_pos hj, hj]
        rfl
      · rw [if_neg hj]
  · intro ht
    cases hemp : (cleanedParas rawParagraphs).isEmpty with
    | true => simp [parse_article_html, hemp]
    | false => simp [parse_article_html, hemp] at ht

theorem c3_word_count_invariant_witness :
    (parse_article_html (newsUrl "a1") none none
        ["By Jane Doe – Paris (Econostream) – Markets rallied today.", "", "Short."]
        none none).text
      = some "By Jane Doe – Paris (Econostream) – Markets rallied today.\n\nShort."
    ∧ (parse_article_html (newsUrl "a1") none none
        ["By Jane Doe – Paris (Econostream) – Markets rallied today.", "", "Short."]
        none none).word_count
      = (pySplit "By Jane Doe – Paris (Econostream) – Markets rallied today.\n\nShort.").length :=
  ⟨by decide,
   (c3_word_count_invariant (newsUrl "a1") none none
     ["By Jane Doe – Paris (Econostream) – Markets rallied today.", "", "Short."]
     none none).1 _ (by decide)⟩

/-- C9: the parser's `text` and `lede` fields are present together:
both are driven by the same cleaned paragraph list, a non-empty list
yielding both and an empty one neither. -/
theorem c9_text_iff_lede (url : String) (title published : Option String)
    (rawParagraphs : List String) (image caption : Option String) :
    (parse_article_html url title published rawParagraphs image caption).text.isSome
      ↔ (parse_article_html url title published rawParagraphs image caption).lede.isSome := by
  cases hemp : (cleanedParas rawParagraphs).isEmpty with
  | true =>
    have hnil : cleanedParas rawParagraphs = [] := by
      cases h : cleanedParas rawParagraphs with
      | nil => rfl
      | cons p ps => rw [h] at hemp; cases hemp
    simp [parse_article_html, hemp, first_meaningful_paragraph, hnil]
  | false =>
    obtain ⟨p, ps, hcons⟩ : ∃ p ps, cleanedParas rawParagraphs = p :: ps := by
      cases h : cleanedParas rawParagraphs with
      | nil => rw [h] at hemp; cases hemp
      | cons p ps => exact ⟨p, ps, rfl⟩
    cases hf : (cleanedParas rawParagraphs).find? fun q => 20 ≤ (pyClean q).length with
    | none =>
      rw [hcons] at hf
      simp [parse_article_html, hemp, first_meaningful_paragraph, hcons, hf]
    | some q => simp [parse_article_html, hemp, first_meaningful_paragraph, hf]

/-- C6: over a list of cleaned paragraphs (paragraphs on which
`_clean` is the identity, which is what `parse_article_html` feeds
it), the lede is the first paragraph of length ≥ 20; when none
qualifies, the very first paragraph; when the list is empty, absent. -/
theorem c6_lede_selection (ps : List String) (hc : ∀ p ∈ ps, pyClean p = p) :
    first_meaningful_paragraph ps
      = match ps.find? fun p => 20 ≤ p.length with
        | some p => some p
        | none => ps.head? := by
  have key : ps.find? (fun p => 20 ≤ (pyClean p).length)
        = ps.find? (fun p => 20 ≤ p.length)
      ∧ ∀ q, ps.find? (fun p => 20 ≤ (pyClean p).length) = some q →
          pyClean q = q := by
    induction ps with
    | nil => exact ⟨rfl, fun q h => by cases h⟩
    | cons p rest ih =>
      have hp : pyClean p = p := hc p (by simp)
      obtain ⟨ih1, ih2⟩ := ih fun q hq => hc q (by simp [hq])
      by_cases h20 : 20 ≤ p.length
      · refine ⟨?_, ?_⟩
        · rw [List.find?_cons_of_pos _ (by simp [hp, h20]),
              List.find?_cons_of_pos _ (by simp [h20])]
        · intro q hq
          rw [List.find?_cons_of_pos _ (by simp [hp, h20])] at hq
          cases hq
          exact hp
      · refine ⟨?_, ?_⟩
        · rw [List.find?_cons_of_neg _ (by simp [hp, h20]),
              List.find?_cons_of_neg _ (by simp [h20]), ih1]
        · intro q hq
          rw [List.find?_cons_of_neg _ (by simp [hp, h20])] at hq
          exact ih2 q hq
  unfold first_meaningful_paragraph
  cases hf : ps.find? (fun p => 20 ≤ (pyClean p).length) with
  | some q =>
    have hplain := key.1.symm.trans hf
    rw [hplain]
    simp [key.2 q hf]
  | none =>
    have hplain := key.1.symm.trans hf
    rw [hplain]

theorem c6_lede_selection_witness :
    (∀ p ∈ ["Hi", "This is a sufficiently long paragraph of prose."], pyClean p = p)
    ∧ first_meaningful_paragraph ["Hi", "This is a sufficiently long paragraph of prose."]
        = some "This is a sufficiently long paragraph of prose."
    ∧ first_meaningful_paragraph ["Hi"] = some "Hi"
    ∧ first_meaningful_paragraph ([] : List String) = none :=
  ⟨by decide,
   by rw [c6_lede_selection _ (by decide)]; decide,
   by rw [c6_lede_selection _ (by decide)]; decide,
   by decide⟩

/-!
## Helper lemmas for the byline-extraction claim
-/

theorem strDataAppend (a b : String) : (a ++ b).data = a.data ++ b.data := rfl

theorem getLast?_mem_self (l : List Char) (c : Char) (h : l.getLast? = some c) :
    c ∈ l := by
  rcases List.mem_getLast?_eq_getLast (by exact h ▸ rfl : c ∈ l.getLast?) with ⟨hne, rfl⟩
  exact List.getLast_mem hne

theorem dropWhile_head?_not (p : Char → Bool) :
    ∀ (l : List Char) (c : Char), (l.dropWhile p).head? = some c → p c = false := by
  intro l
  induction l with
  | nil => intro c h; cases h
  | cons a as ih =>
    intro c h
    by_cases hp : p a
    · rw [List.dropWhile_cons_of_pos hp] at h
      exact ih c h
    · rw [List.dropWhile_cons_of_neg hp] at h
      cases h
      simpa using hp

theorem dropWhile_getLast?_of_ne_nil (p : Char → Bool) :
    ∀ (l : List Char), l.dropWhile p ≠ [] →
      (l.dropWhile p).getLast? = l.getLast? := by
  intro l
  induction l with
  | nil => intro h; cases h rfl
  | cons a as ih =>
    intro h
    by_cases hp : p a
    · rw [List.dropWhile_cons_of_pos hp] at h ⊢
      rw [ih h]
      cases has : as with
      | nil => rw [has] at h; simp at h
      | cons b bs => exact List.getLast?_cons_cons.symm
    · rw [List.dropWhile_cons_of_neg hp]

theorem pyStripList_head_not (m : List Char) (c : Char)
    (h : (pyStripList m).head? = some c) : pyIsSpace c = false := by
  unfold pyStripList at h
  rw [List.head?_reverse] at h
  have hne : (m.dropWhile pyIsSpace).reverse.dropWhile pyIsSpace ≠ [] := by
    intro he
    rw [he] at h
    cases h
  rw [dropWhile_getLast?_of_ne_nil _ _ hne, List.getLast?_reverse] at h
  exact dropWhile_head?_not _ _ _ h

theorem pyStripList_getLast_not (m : List Char) (c : Char)
    (h : (pyStripList m).getLast? = some c) : pyIsSpace c = false := by
  unfold pyStripList at h
  rw [List.getLast?_reverse] at h
  exact dropWhile_head?_not _ _ _ h

theorem pyCleanList_head_not (l : List Char) (c : Char) (hc : pyCleanList l = l)
    (hh : l.head? = some c) : pyIsSpace c = false := by
  rw [← hc] at hh
  unfold pyCleanList at hh
  exact pyStripList_head_not _ _ hh

theorem pyCleanList_getLast_not (l : List Char) (c : Char) (hc : pyCleanList l = l)
    (hh : l.getLast? = some c) : pyIsSpace c = false := by
  rw [← hc] at hh
  unfold pyCleanList at hh
  exact pyStripList_getLast_not _ _ hh

theorem isDashChar_not_space (c : Char) (h : isDashChar c = true) :
    pyIsSpace c = false := by
  unfold isDashChar at h
  simp only [Bool.or_eq_true, decide_eq_true_eq] at h
  rcases h with (rfl | rfl) | rfl <;> decide

theorem locClass_ne_lparen (c : Char) (h : isLocClassChar c = true) : ¬ c = '(' := by
  intro he
  rw [he] at h
  exact absurd h (by decide)

theorem idxOfCharP_append_first (p : Char → Bool) (x : Char) (m : List Char)
    (hx : p x = true) :
    ∀ pre, (∀ c ∈ pre, p c = false) →
    idxOfCharP p (pre ++ x :: m) = some pre.length := by
  intro pre
  induction pre with
  | nil => simp [idxOfCharP, hx]
  | cons a as ih =>
    intro hpre
    have ha : p a = false := hpre a (by simp)
    simp only [List.cons_append, idxOfCharP, ha, Bool.false_eq_true, if_false]
    show Option.map (fun x => x + 1) (idxOfCharP p (as ++ x :: m)) = some (a :: as).length
    rw [ih fun c hc => hpre c (by simp [hc])]
    rfl

theorem listStartsWith_append_self (l m : List Char) : listStartsWith l (l ++ m) = true := by
  induction l with
  | nil => rfl
  | cons a as ih => simp [listStartsWith, ih]

theorem dropWhile_append_of_ne_nil (p : Char → Bool) :
    ∀ (l m : List Char), l.dropWhile p ≠ [] →
    (l ++ m).dropWhile p = l.dropWhile p ++ m := by
  intro l
  induction l with
  | nil => intro m h; cases h rfl
  | cons a as ih =>
    intro m h
    by_cases hp : p a
    · rw [List.dropWhile_cons_of_pos hp] at h
      rw [List.cons_append, List.dropWhile_cons_of_pos hp, ih m h,
          List.dropWhile_cons_of_pos hp]
    · rw [List.cons_append, List.dropWhile_cons_of_neg hp,
          List.dropWhile_cons_of_neg hp]
      rfl

theorem get?_append_length_add (m : List Char) (k : Nat) :
    ∀ l : List Char, (l ++ m).get? (l.length + k) = m.get? k := by
  intro l
  induction l with
  | nil => rw [List.nil_append, show List.length ([] : List Char) + k = k from by simp]
  | cons a as ih =>
    show (a :: (as ++ m)).get? (as.length + 1 + k) = m.get? k
    rw [show as.length + 1 + k = (as.length + k) + 1 from by omega]
    exact ih

theorem author_re_search_shape (nameL tailA : List Char) (d1 : Char)
    (hd1 : isDashChar d1 = true) (hn0 : nameL ≠ [])
    (hnh : ∀ c, nameL.head? = some c → pyIsSpace c = false)
    (hnd : ∀ c ∈ nameL, isDashChar c = false) :
    author_re_search ('B' :: 'y' :: ' ' :: nameL ++ (' ' :: d1 :: tailA))
      = some nameL := by
  obtain ⟨c0, name', rfl⟩ : ∃ c0 name', nameL = c0 :: name' := by
    cases nameL with
    | nil => cases hn0 rfl
    | cons c0 name' => exact ⟨c0, name', rfl⟩
  have hc0 : pyIsSpace c0 = false := hnh c0 rfl
  have hpre : ∀ c ∈ (' ' :: c0 :: name') ++ [' '], isDashChar c = false := by
    intro c hc
    simp only [List.mem_append, List.mem_cons, List.mem_singleton,
      List.not_mem_nil, or_false] at hc
    rcases hc with (hc | hc | hc) | hc
    · rw [hc]; decide
    · rw [hc]; exact hnd c0 (by simp)
    · exact hnd c (by simp [hc])
    · rw [hc]; decide
  have hidx : idxOfCharP isDashChar ((' ' :: c0 :: name') ++ (' ' :: d1 :: tailA))
      = some (name'.length + 3) := by
    have h1 : (' ' :: c0 :: name') ++ (' ' :: d1 :: tailA)
        = ((' ' :: c0 :: name') ++ [' ']) ++ (d1 :: tailA) := by simp
    rw [h1, idxOfCharP_append_first isDashChar d1 tailA hd1 _ hpre]
    simp
  have hws0 : wsAt ((' ' :: c0 :: name') ++ (' ' :: d1 :: tailA)) 0 = true := rfl
  have hwsd : wsAt ((' ' :: c0 :: name') ++ (' ' :: d1 :: tailA))
      (name'.length + 2) = true := by
    unfold wsAt
    rw [show name'.length + 2 = (' ' :: c0 :: name').length + 0 from by simp,
        get?_append_length_add]
    rfl
  have hpfx : wsPfxLen ((' ' :: c0 :: name') ++ (' ' :: d1 :: tailA)) = 1 := by
    unfold wsPfxLen
    show ((' ' :: ((c0 :: name') ++ (' ' :: d1 :: tailA))).takeWhile pyIsSpace).length = 1
    rw [List.takeWhile_cons_of_pos (by decide),
        show (c0 :: name') ++ (' ' :: d1 :: tailA)
          = c0 :: (name' ++ (' ' :: d1 :: tailA)) from rfl,
        List.takeWhile_cons_of_neg (by simp [hc0])]
    rfl
  have htake : ((' ' :: c0 :: name') ++ (' ' :: d1 :: tailA)).take (name'.length + 2)
      = ' ' :: c0 :: name' := by
    rw [List.take_append_eq_append_take,
        List.take_of_length_le (by simp)]
    simp
  show author_re_search
      ('B' :: 'y' :: ((' ' :: c0 :: name') ++ (' ' :: d1 :: tailA))) = _
  unfold author_re_search
  rw [List.dropWhile_cons_of_neg (by decide)]
  dsimp only
  rw [hidx]
  dsimp only
  rw [show name'.length + 3 - 1 = name'.length + 2 from rfl,
      show name'.length + 3 - 2 = name'.length + 1 from rfl,
      hws0, hwsd, hpfx, htake,
      decide_eq_true (show 3 ≤ name'.length + 3 by omega),
      Nat.min_eq_left (by omega)]
  simp

theorem locTail_econ (tail : List Char) (d2 : Char) (hd2 : isDashChar d2 = true) :
    locTailMatch (' ' :: (econLit ++ (' ' :: d2 :: tail))) = true := by
  unfold locTailMatch
  rw [List.dropWhile_cons_of_pos (by decide),
      dropWhile_append_of_ne_nil pyIsSpace econLit _ (by decide),
      show econLit.dropWhile pyIsSpace = econLit from by decide]
  dsimp only
  rw [listStartsWith_append_self, List.drop_left,
      List.dropWhile_cons_of_pos (by decide),
      List.dropWhile_cons_of_neg (by simp [isDashChar_not_space d2 hd2])]
  simp [hd2]

theorem locTail_fail (u z : List Char) (hu0 : u ≠ [])
    (hul : ∀ c ∈ u, isLocClassChar c = true)
    (hlast : ∀ c, u.getLast? = some c → pyIsSpace c = false) :
    locTailMatch (u ++ (' ' :: (econLit ++ z))) = false := by
  have hne : u.dropWhile pyIsSpace ≠ [] := by
    intro he
    have hall := List.dropWhile_eq_nil_iff.mp he
    obtain ⟨c, hc⟩ : ∃ c, u.getLast? = some c := by
      cases hu : u.getLast? with
      | some c => exact ⟨c, rfl⟩
      | none =>
        have := List.getLast?_isSome.mpr hu0
        rw [hu] at this
        cases this
    have hmem : c ∈ u := getLast?_mem_self u c hc
    have := hall c hmem
    rw [hlast c hc] at this
    cases this
  obtain ⟨cstar, u', hu'⟩ : ∃ cstar u', u.dropWhile pyIsSpace = cstar :: u' := by
    cases hd : u.dropWhile pyIsSpace with
    | nil => cases hne hd
    | cons cstar u' => exact ⟨cstar, u', rfl⟩
  have hcs : pyIsSpace cstar = false := dropWhile_head?_not pyIsSpace u cstar (by rw [hu']; rfl)
  have hcsl : isLocClassChar cstar = true := by
    have hmem : cstar ∈ u :=
      (List.dropWhile_sublist pyIsSpace).subset (by rw [hu']; simp)
    exact hul cstar hmem
  unfold locTailMatch
  rw [dropWhile_append_of_ne_nil pyIsSpace u _ hne, hu']
  dsimp only
  have hpref : listStartsWith econLit ((cstar :: u') ++ (' ' :: (econLit ++ z))) = false := by
    rw [show econLit = '(' :: "Econostream)".data from rfl]
    show (('(' == cstar) && _) = false
    rw [beq_eq_false_iff_ne.mpr fun he => locClass_ne_lparen cstar hcsl he.symm]
    rfl
  rw [hpref]
  rfl

theorem lazyLocGroup_run (d2 : Char) (hd2 : isDashChar d2 = true) (tail : List Char) :
    ∀ (u acc : List Char), u ≠ [] →
    (∀ c ∈ u, isLocClassChar c = true) →
    (∀ c, u.getLast? = some c → pyIsSpace c = false) →
    lazyLocGroup acc (u ++ (' ' :: (econLit ++ (' ' :: d2 :: tail))))
      = some (acc ++ u) := by
  intro u
  induction u with
  | nil => intro acc h _ _; cases h rfl
  | cons q u' ih =>
    intro acc hne hul hlast
    have hq : isLocClassChar q = true := hul q (by simp)
    cases u' with
    | nil =>
      rw [show ([q] ++ (' ' :: (econLit ++ (' ' :: d2 :: tail))))
          = q :: (' ' :: (econLit ++ (' ' :: d2 :: tail))) from rfl]
      unfold lazyLocGroup
      rw [hq, locTail_econ tail d2 hd2]
      simp
    | cons q2 u'' =>
      have hfail : locTailMatch ((q2 :: u'') ++ (' ' :: (econLit ++ (' ' :: d2 :: tail))))
          = false :=
        locTail_fail (q2 :: u'') (' ' :: d2 :: tail) (by simp)
          (fun c hc => hul c (by simp [hc]))
          (fun c hc => hlast c (List.getLast?_cons_cons.trans hc))
      rw [show ((q :: q2 :: u'') ++ (' ' :: (econLit ++ (' ' :: d2 :: tail))))
          = q :: ((q2 :: u'') ++ (' ' :: (econLit ++ (' ' :: d2 :: tail)))) from rfl]
      unfold lazyLocGroup
      rw [hq, hfail, if_pos rfl, if_neg (by simp)]
      rw [ih (acc ++ [q]) (by simp)
        (fun c hc => hul c (by simp [hc]))
        (fun c hc => hlast c (List.getLast?_cons_cons.trans hc))]
      simp

theorem locAfterDash_shape (placeL tail : List Char) (d2 : Char)
    (hd2 : isDashChar d2 = true) (hp0 : placeL ≠ [])
    (hph : ∀ c, placeL.head? = some c → pyIsSpace c = false)
    (hpl : ∀ c ∈ placeL, isLocClassChar c = true)
    (hplast : ∀ c, placeL.getLast? = some c → pyIsSpace c = false) :
    locAfterDash (' ' :: (placeL ++ (' ' :: (econLit ++ (' ' :: d2 :: tail)))))
      = some placeL := by
  obtain ⟨c0, p', rfl⟩ : ∃ c0 p', placeL = c0 :: p' := by
    cases placeL with
    | nil => cases hp0 rfl
    | cons c0 p' => exact ⟨c0, p', rfl⟩
  have hc0 : pyIsSpace c0 = false := hph c0 rfl
  unfold locAfterDash
  have hpfx : wsPfxLen
      (' ' :: ((c0 :: p') ++ (' ' :: (econLit ++ (' ' :: d2 :: tail))))) = 1 := by
    unfold wsPfxLen
    rw [List.takeWhile_cons_of_pos (by decide),
        show (c0 :: p') ++ (' ' :: (econLit ++ (' ' :: d2 :: tail)))
          = c0 :: (p' ++ (' ' :: (econLit ++ (' ' :: d2 :: tail)))) from rfl,
        List.takeWhile_cons_of_neg (by simp [hc0])]
    rfl
  rw [hpfx]
  have hdesc : ∀ r : List Char, locDescend r 1
      = match lazyLocGroup [] (r.drop 1) with
        | some g => some g
        | none => locDescend r 0 := fun r => rfl
  rw [hdesc,
      show (' ' :: ((c0 :: p') ++ (' ' :: (econLit ++ (' ' :: d2 :: tail))))).drop 1
        = (c0 :: p') ++ (' ' :: (econLit ++ (' ' :: d2 :: tail))) from rfl,
      lazyLocGroup_run d2 hd2 tail (c0 :: p') [] (by simp) hpl hplast]
  rfl

theorem loc_re_search_append_nodash (m : List Char) :
    ∀ pre, (∀ c ∈ pre, isDashChar c = false) →
    loc_re_search (pre ++ m) = loc_re_search m := by
  intro pre
  induction pre with
  | nil => intro _; rfl
  | cons a as ih =>
    intro hpre
    have ha := hpre a (by simp)
    show loc_re_search (a :: (as ++ m)) = loc_re_search m
    conv_lhs => unfold loc_re_search
    rw [ha, if_neg (by simp)]
    exact ih fun c hc => hpre c (by simp [hc])

theorem loc_re_search_shape (preL placeL tail : List Char) (d1 d2 : Char)
    (hpre : ∀ c ∈ preL, isDashChar c = false)
    (hd1 : isDashChar d1 = true) (hd2 : isDashChar d2 = true)
    (hp0 : placeL ≠ [])
    (hph : ∀ c, placeL.head? = some c → pyIsSpace c = false)
    (hpl : ∀ c ∈ placeL, isLocClassChar c = true)
    (hplast : ∀ c, placeL.getLast? = some c → pyIsSpace c = false) :
    loc_re_search
        (preL ++ (d1 :: ' ' :: (placeL ++ (' ' :: (econLit ++ (' ' :: d2 :: tail))))))
      = some placeL := by
  rw [loc_re_search_append_nodash _ preL hpre]
  unfold loc_re_search
  rw [hd1, if_pos rfl, locAfterDash_shape placeL tail d2 hd2 hp0 hph hpl hplast]

/-- C5: every text starting with a byline of the shape
`By <name> <dash> <place> (Econostream) <dash> ...` (dash any of
hyphen, en-dash, em-dash) yields that name as `author` and that place
as `location`; and when the byline pattern does not match at the start
of the leading text, both are absent.  The shape hypotheses say the
name is nonempty, dash-free and `_clean`-stable, the place is nonempty,
`_clean`-stable and within the location pattern's character class, and
the byline fits inside the 300-character head the extractor examines. -/
theorem c5_byline_extraction (nameL placeL : List Char) (d1 d2 : Char) (rest : String)
    (hd1 : isDashChar d1 = true) (hd2 : isDashChar d2 = true)
    (hn0 : nameL ≠ []) (hnc : pyCleanList nameL = nameL)
    (hnd : ∀ c ∈ nameL, isDashChar c = false)
    (hp0 : placeL ≠ []) (hpc : pyCleanList placeL = placeL)
    (hpl : ∀ c ∈ placeL, isLocClassChar c = true)
    (hlen : nameL.length + placeL.length ≤ 278) :
    extract_author_and_location
        (String.mk ("By ".data ++ nameL ++ [' ', d1, ' '] ++ placeL
          ++ " (Econostream) ".data ++ [d2, ' '] ++ rest.data))
      = (some (String.mk nameL), some (String.mk placeL))
    ∧ ∀ t : String, author_re_search (t.data.take 300) = none →
        extract_author_and_location t = (none, none) := by
  constructor
  case right =>
    intro t ht
    unfold extract_author_and_location
    dsimp only
    rw [ht]
  case left =>
    have hnh : ∀ c, nameL.head? = some c → pyIsSpace c = false :=
      fun c hc => pyCleanList_head_not nameL c hnc hc
    have hph : ∀ c, placeL.head? = some c → pyIsSpace c = false :=
      fun c hc => pyCleanList_head_not placeL c hpc hc
    have hplast : ∀ c, placeL.getLast? = some c → pyIsSpace c = false :=
      fun c hc => pyCleanList_getLast_not placeL c hpc hc
    have hlenPre : (['B', 'y', ' '] ++ nameL ++ [' ', d1, ' '] ++ placeL
        ++ [' ', '(', 'E', 'c', 'o', 'n', 'o', 's', 't', 'r', 'e', 'a', 'm', ')', ' ']
        ++ [d2]).length
        = nameL.length + placeL.length + 22 := by
      simp [List.length_append]
      omega
    have hsplit : (['B', 'y', ' '] ++ nameL ++ [' ', d1, ' '] ++ placeL
          ++ [' ', '(', 'E', 'c', 'o', 'n', 'o', 's', 't', 'r', 'e', 'a', 'm', ')', ' ']
          ++ [d2, ' '] ++ rest.data)
        = (['B', 'y', ' '] ++ nameL ++ [' ', d1, ' '] ++ placeL
          ++ [' ', '(', 'E', 'c', 'o', 'n', 'o', 's', 't', 'r', 'e', 'a', 'm', ')', ' ']
          ++ [d2]) ++ (' ' :: rest.data) := by
      simp only [List.append_assoc]
      rfl
    have htake : ((['B', 'y', ' '] ++ nameL ++ [' ', d1, ' '] ++ placeL
          ++ [' ', '(', 'E', 'c', 'o', 'n', 'o', 's', 't', 'r', 'e', 'a', 'm', ')', ' ']
          ++ [d2]) ++ (' ' :: rest.data)).take 300
        = (['B', 'y', ' '] ++ nameL ++ [' ', d1, ' '] ++ placeL
          ++ [' ', '(', 'E', 'c', 'o', 'n', 'o', 's', 't', 'r', 'e', 'a', 'm', ')', ' ']
          ++ [d2])
          ++ ((' ' :: rest.data).take (300 - (nameL.length + placeL.length + 22))) := by
      rw [List.take_append_eq_append_take,
          List.take_of_length_le (by rw [hlenPre]; omega), hlenPre]
    have hshapeA : ∀ T' : List Char, (['B', 'y', ' '] ++ nameL ++ [' ', d1, ' '] ++ placeL
          ++ [' ', '(', 'E', 'c', 'o', 'n', 'o', 's', 't', 'r', 'e', 'a', 'm', ')', ' ']
          ++ [d2]) ++ T'
        = 'B' :: 'y' :: ' ' :: nameL
            ++ (' ' :: d1 :: (' ' :: (placeL ++ (' ' :: (econLit ++ (' ' :: d2 :: T')))))) := by
      intro T'
      simp only [List.append_assoc]
      rfl
    have hshapeL : ∀ T' : List Char,
        ('B' :: 'y' :: ' ' :: nameL
            ++ (' ' :: d1 :: (' ' :: (placeL ++ (' ' :: (econLit ++ (' ' :: d2 :: T')))))))
        = (('B' :: 'y' :: ' ' :: nameL) ++ [' '])
            ++ (d1 :: ' ' :: (placeL ++ (' ' :: (econLit ++ (' ' :: d2 :: T'))))) := by
      intro T'
      simp only [List.append_assoc]
      rfl
    have hpreL : ∀ c ∈ ('B' :: 'y' :: ' ' :: nameL) ++ [' '], isDashChar c = false := by
      intro c hc
      simp only [List.mem_append, List.mem_cons, List.mem_singleton,
        List.not_mem_nil, or_false] at hc
      rcases hc with (hc | hc | hc | hc) | hc
      · rw [hc]; decide
      · rw [hc]; decide
      · rw [hc]; decide
      · exact hnd c hc
      · rw [hc]; decide
    unfold extract_author_and_location
    dsimp only
    rw [hsplit, htake, hshapeA,
        author_re_search_shape nameL _ d1 hd1 hn0 hnh hnd,
        hshapeL,
        loc_re_search_shape (('B' :: 'y' :: ' ' :: nameL) ++ [' ']) placeL _ d1 d2
          hpreL hd1 hd2 hp0 hph hpl hplast]
    simp only [Option.map_some]
    show (some (pyClean (String.mk nameL)), some (pyClean (String.mk placeL))) = _
    unfold pyClean
    rw [show (String.mk nameL).data = nameL from rfl,
        show (String.mk placeL).data = placeL from rfl, hnc, hpc]

theorem c5_byline_extraction_witness :
    isDashChar '–' = true
    ∧ pyCleanList "Jane Doe".data = "Jane Doe".data
    ∧ pyCleanList "Paris".data = "Paris".data
    ∧ (extract_author_and_location
        (String.mk ("By ".data ++ "Jane Doe".data ++ [' ', '–', ' '] ++ "Paris".data
          ++ " (Econostream) ".data ++ ['–', ' '] ++ "The rest of the story...".data))
        = (some (String.mk "Jane Doe".data), some (String.mk "Paris".data))
      ∧ ∀ t : String, author_re_search (t.data.take 300) = none →
          extract_author_and_location t = (none, none))
    ∧ extract_author_and_location
        "By Jane Doe – Paris (Econostream) – The rest of the story..."
        = (some "Jane Doe", some "Paris") :=
  ⟨by decide, by decide, by decide,
   c5_byline_extraction "Jane Doe".data "Paris".data '–' '–' "The rest of the story..."
     (by decide) (by decide) (by decide) (by decide) (by decide)
     (by decide) (by decide) (by decide) (by decide),
   by decide⟩
